import Mathlib

/-!
Verification of the DNA sequence analysis and mutation detection core.

Sequences are modelled as `List Char`. Python's `str.upper`, slicing and
`dict` lookups are embedded directly; Python floats are modelled as exact
rationals, with `round(x, 2)` embedded as integer rounding of `x * 100`.
-/

/-- Python `str.upper`, restricted to the ASCII range that DNA data uses. -/
def upper (s : List Char) : List Char := s.map Char.toUpper

/-- Nucleotide counts, per `count_nucleotides` in `analysis.py`. -/
structure NucleotideCounts where
  A : Nat
  T : Nat
  C : Nat
  G : Nat
deriving DecidableEq

/-- Embedding of `count_nucleotides(sequence)` from `analysis.py`. -/
def count_nucleotides (sequence : List Char) : NucleotideCounts :=
  let s := upper sequence
  ⟨s.count 'A', s.count 'T', s.count 'C', s.count 'G'⟩

/-- Python `round(x, 2)` on a rational value. -/
def round2 (x : ℚ) : ℚ := (round (x * 100) : ℚ) / 100

/-- Result of `calculate_percentages` in `analysis.py`. -/
structure CompositionPercentages where
  gc_percent : ℚ
  at_percent : ℚ
deriving DecidableEq

/-- Embedding of `calculate_percentages(sequence)` from `analysis.py`. -/
def calculate_percentages (sequence : List Char) : CompositionPercentages :=
  let counts := count_nucleotides sequence
  let total := sequence.length
  if total = 0 then ⟨0, 0⟩
  else
    let gc_percent := ((counts.G + counts.C : ℚ) / total) * 100
    let at_percent := ((counts.A + counts.T : ℚ) / total) * 100
    ⟨round2 gc_percent, round2 at_percent⟩

/-- The `complement_map` dict of `reverse_complement` in `analysis.py`;
`none` models a `KeyError` on lookup. -/
def complement_map (base : Char) : Option Char :=
  if base = 'A' then some 'T'
  else if base = 'T' then some 'A'
  else if base = 'C' then some 'G'
  else if base = 'G' then some 'C'
  else none

/-- The `''.join(complement_map[base] for base in sequence)` traversal of
`reverse_complement`: maps every symbol through `complement_map`,
failing at the first symbol the dict lacks. -/
def complement_walk : List Char → Option (List Char)
  | [] => some []
  | c :: rest =>
    match complement_map c, complement_walk rest with
    | some b, some bs => some (b :: bs)
    | _, _ => none

/-- Embedding of `reverse_complement(sequence)` from `analysis.py`; `none` models the
`KeyError` raised on a symbol missing from `complement_map`. -/
def reverse_complement (sequence : List Char) : Option (List Char) :=
  (complement_walk (upper sequence)).map List.reverse

/-- The codon loop of `split_into_codons`: slices of length 3 are kept,
a shorter trailing slice is dropped. -/
def split_codons_walk : List Char → List (List Char)
  | c1 :: c2 :: c3 :: rest => [c1, c2, c3] :: split_codons_walk rest
  | _ => []

/-- Embedding of `split_into_codons(sequence)` from `analysis.py`. -/
def split_into_codons (sequence : List Char) : List (List Char) :=
  split_codons_walk (upper sequence)

/-- Embedding of `GENETIC_CODE` from `translation.py`; `none` models a codon absent
from the dict. -/
def GENETIC_CODE (codon : List Char) : Option Char :=
  match codon with
  | ['T','T','T'] => some 'F'
  | ['T','T','C'] => some 'F'
  | ['T','T','A'] => some 'L'
  | ['T','T','G'] => some 'L'
  | ['T','C','T'] => some 'S'
  | ['T','C','C'] => some 'S'
  | ['T','C','A'] => some 'S'
  | ['T','C','G'] => some 'S'
  | ['T','A','T'] => some 'Y'
  | ['T','A','C'] => some 'Y'
  | ['T','A','A'] => some '*'
  | ['T','A','G'] => some '*'
  | ['T','G','T'] => some 'C'
  | ['T','G','C'] => some 'C'
  | ['T','G','A'] => some '*'
  | ['T','G','G'] => some 'W'
  | ['C','T','T'] => some 'L'
  | ['C','T','C'] => some 'L'
  | ['C','T','A'] => some 'L'
  | ['C','T','G'] => some 'L'
  | ['C','C','T'] => some 'P'
  | ['C','C','C'] => some 'P'
  | ['C','C','A'] => some 'P'
  | ['C','C','G'] => some 'P'
  | ['C','A','T'] => some 'H'
  | ['C','A','C'] => some 'H'
  | ['C','A','A'] => some 'Q'
  | ['C','A','G'] => some 'Q'
  | ['C','G','T'] => some 'R'
  | ['C','G','C'] => some 'R'
  | ['C','G','A'] => some 'R'
  | ['C','G','G'] => some 'R'
  | ['A','T','T'] => some 'I'
  | ['A','T','C'] => some 'I'
  | ['A','T','A'] => some 'I'
  | ['A','T','G'] => some 'M'
  | ['A','C','T'] => some 'T'
  | ['A','C','C'] => some 'T'
  | ['A','C','A'] => some 'T'
  | ['A','C','G'] => some 'T'
  | ['A','A','T'] => some 'N'
  | ['A','A','C'] => some 'N'
  | ['A','A','A'] => some 'K'
  | ['A','A','G'] => some 'K'
  | ['A','G','T'] => some 'S'
  | ['A','G','C'] => some 'S'
  | ['A','G','A'] => some 'R'
  | ['A','G','G'] => some 'R'
  | ['G','T','T'] => some 'V'
  | ['G','T','C'] => some 'V'
  | ['G','T','A'] => some 'V'
  | ['G','T','G'] => some 'V'
  | ['G','C','T'] => some 'A'
  | ['G','C','C'] => some 'A'
  | ['G','C','A'] => some 'A'
  | ['G','C','G'] => some 'A'
  | ['G','A','T'] => some 'D'
  | ['G','A','C'] => some 'D'
  | ['G','A','A'] => some 'E'
  | ['G','A','G'] => some 'E'
  | ['G','G','T'] => some 'G'
  | ['G','G','C'] => some 'G'
  | ['G','G','A'] => some 'G'
  | ['G','G','G'] => some 'G'
  | _ => none

/-- Embedding of `translate_codon(codon)` from `translation.py`. -/
def translate_codon (codon : List Char) : Char :=
  let c := upper codon
  if c.length = 3 then (GENETIC_CODE c).getD '?' else '?'

/-- One `codon_map` entry of `translate_dna` in `translation.py`. -/
structure CodonMapEntry where
  codon : List Char
  amino_acid : Char
  position : Nat
deriving DecidableEq

/-- The codon loop of `translate_dna`: walks full codons from the sliced
sequence, recording the position `i`, and breaks after a stop codon. -/
def translate_walk : List Char → Nat →
    List Char × List (List Char) × List CodonMapEntry
  | c1 :: c2 :: c3 :: rest, i =>
    let codon := [c1, c2, c3]
    let amino_acid := translate_codon codon
    if amino_acid = '*' then
      ([amino_acid], [codon], [⟨codon, amino_acid, i⟩])
    else
      let next := translate_walk rest (i + 3)
      (amino_acid :: next.1, codon :: next.2.1, ⟨codon, amino_acid, i⟩ :: next.2.2)
  | _, _ => ([], [], [])

/-- Result shape of `translate_dna` in `translation.py`. -/
structure TranslationResult where
  protein : List Char
  codons : List (List Char)
  codon_map : List CodonMapEntry
deriving DecidableEq

/-- Embedding of `translate_dna(sequence, start_position)` from `translation.py`. -/
def translate_dna (sequence : List Char) (start_position : Nat) : TranslationResult :=
  let s := upper sequence
  if start_position ≥ s.length then ⟨[], [], []⟩
  else
    let t := s.drop start_position
    let r := translate_walk t 0
    ⟨r.1, r.2.1, r.2.2⟩

/-- Embedding of `translate_orfs`: attaches to each ORF-shaped record the translation of
its own sequence; here modelled on the sequence fields directly
(`translation.py`, `translate_orfs`). -/
def translate_orfs (orf_sequences : List (List Char)) : List (List Char × TranslationResult) :=
  orf_sequences.map fun s => (s, translate_dna s 0)

/-- A mutation record of `align_sequences` in `mutation.py`: the `type`
key of the Python dict is the constructor tag. -/
inductive Mutation where
  | substitution (position : Nat) (reference : Char) (variant : Char)
  | insertion (position : Nat) (length : Nat) (sequence : List Char)
  | deletion (position : Nat) (length : Nat) (sequence : List Char)
deriving DecidableEq

/-- An insertion or deletion record, as opposed to a substitution. -/
def isIndel : Mutation → Bool
  | Mutation.substitution _ _ _ => false
  | _ => true

/-- The position-by-position comparison loop shared by the three branches
of `align_sequences`: one mark per compared position, a substitution
record per mismatch.  The pair list is the zip of the two sequences over
the compared range; `i` is the position of the first pair. -/
def subst_scan : List (Char × Char) → Nat → List Char × List Mutation
  | [], _ => ([], [])
  | (a, b) :: rest, i =>
    let next := subst_scan rest (i + 1)
    if a = b then ('|' :: next.1, next.2)
    else ('*' :: next.1, Mutation.substitution i a b :: next.2)

/-- Result shape of `align_sequences` in `mutation.py`. -/
structure AlignmentResult where
  seq1 : List Char
  seq2 : List Char
  alignment : List Char
  mutations : List Mutation
  mutation_count : Nat
  length_seq1 : Nat
  length_seq2 : Nat
deriving DecidableEq

/-- Embedding of `align_sequences(seq1, seq2)` from `mutation.py`. -/
def align_sequences (seq1 seq2 : List Char) : AlignmentResult :=
  let s1 := upper seq1
  let s2 := upper seq2
  let len1 := s1.length
  let len2 := s2.length
  if len1 = len2 then
    let scanned := subst_scan (s1.zip s2) 0
    ⟨s1, s2, scanned.1, scanned.2, scanned.2.length, len1, len2⟩
  else
    let length_diff := max len1 len2 - min len1 len2
    if len1 < len2 then
      let scanned := subst_scan (s1.zip s2) 0
      let mutations := Mutation.insertion len1 length_diff (s2.drop len1) :: scanned.2
      ⟨s1, s2, scanned.1 ++ List.replicate length_diff ' ', mutations,
        mutations.length, len1, len2⟩
    else
      let scanned := subst_scan (s1.zip s2) 0
      let mutations := Mutation.deletion len2 length_diff (s1.drop len2) :: scanned.2
      ⟨s1, s2, scanned.1, mutations, mutations.length, len1, len2⟩

/-- Result shape of `classify_mutations` in `mutation.py`. -/
structure MutationClassification where
  substitutions : Nat
  insertions : Nat
  deletions : Nat
deriving DecidableEq

/-- One step of the classification loop of `classify_mutations`. -/
def classify_step (cls : MutationClassification) : Mutation → MutationClassification
  | Mutation.substitution _ _ _ => { cls with substitutions := cls.substitutions + 1 }
  | Mutation.insertion _ _ _ => { cls with insertions := cls.insertions + 1 }
  | Mutation.deletion _ _ _ => { cls with deletions := cls.deletions + 1 }

/-- Embedding of `classify_mutations(mutations)` from `mutation.py`. -/
def classify_mutations (mutations : List Mutation) : MutationClassification :=
  mutations.foldl classify_step ⟨0, 0, 0⟩

/-- A protein-level mutation record of `compare_proteins` in
`mutation.py`: substitution dicts carry no `type` key and indel dicts
carry no `length` key there. -/
inductive ProteinMutation where
  | substitution (position : Nat) (reference : Char) (variant : Char)
  | insertion (position : Nat) (sequence : List Char)
  | deletion (position : Nat) (sequence : List Char)
deriving DecidableEq

/-- An insertion or deletion record at the protein level. -/
def isProteinIndel : ProteinMutation → Bool
  | ProteinMutation.substitution _ _ _ => false
  | _ => true

/-- The mismatch loop of `compare_proteins` over the common prefix of the
two proteins, as a scan over their zip; `i` is the position of the first
pair. -/
def prot_subst_scan : List (Char × Char) → Nat → List ProteinMutation
  | [], _ => []
  | (a, b) :: rest, i =>
    if a = b then prot_subst_scan rest (i + 1)
    else ProteinMutation.substitution i a b :: prot_subst_scan rest (i + 1)

/-- Result shape of `compare_proteins` in `mutation.py`. -/
structure ProteinComparison where
  protein1 : List Char
  protein2 : List Char
  protein_mutations : List ProteinMutation
  translation1 : TranslationResult
  translation2 : TranslationResult
deriving DecidableEq

/-- Embedding of `compare_proteins(seq1, seq2)` from `mutation.py`. -/
def compare_proteins (seq1 seq2 : List Char) : ProteinComparison :=
  let t1 := translate_dna seq1 0
  let t2 := translate_dna seq2 0
  let p1 := t1.protein
  let p2 := t2.protein
  let subs := prot_subst_scan (p1.zip p2) 0
  let protein_mutations :=
    if p1.length = p2.length then subs
    else if p1.length < p2.length then
      subs ++ [ProteinMutation.insertion p1.length (p2.drop p1.length)]
    else
      subs ++ [ProteinMutation.deletion p2.length (p1.drop p2.length)]
  ⟨p1, p2, protein_mutations, t1, t2⟩

/-- Result shape of `compare_sequences` in `mutation.py`. -/
structure ComparisonResult where
  alignment : AlignmentResult
  mutation_classification : MutationClassification
  protein_comparison : ProteinComparison
deriving DecidableEq

/-- Embedding of `compare_sequences(seq1, seq2)` from `mutation.py`. -/
def compare_sequences (seq1 seq2 : List Char) : ComparisonResult :=
  let alignment := align_sequences seq1 seq2
  ⟨alignment, classify_mutations alignment.mutations, compare_proteins seq1 seq2⟩

/-- An ORF record of `detect_orfs` in `analysis.py` (`end` is a Lean
keyword, hence the trailing underscore). -/
structure ORF where
  frame : Nat
  start : Nat
  end_ : Nat
  length : Nat
  sequence : List Char
deriving DecidableEq

/-- The stop codon set of `analysis.py`. -/
def stop_codons : List (List Char) := [['T','A','A'], ['T','A','G'], ['T','G','A']]

/-- The inner `while` loop of `detect_orfs`: from `j`, step by 3 while at
least 3 symbols remain, returning the offset of the first stop codon, or
`none` when the loop falls off the end. -/
def find_stop (s : List Char) (j : Nat) : Option Nat :=
  if j + 2 < s.length then
    if (s.drop j).take 3 ∈ stop_codons then some j
    else find_stop s (j + 3)
  else none
termination_by s.length - j

/-- Soundness of `find_stop` (also the termination measure fact used by
`orf_scan` below): a found stop is at or after the search start, in the
same frame, with a full stop codon there. -/
theorem find_stop_spec (s : List Char) (j k : Nat) (h : find_stop s j = some k) :
    j ≤ k ∧ k % 3 = j % 3 ∧ k + 2 < s.length ∧ (s.drop k).take 3 ∈ stop_codons := by
  rw [find_stop.eq_def] at h
  split at h
  · split at h
    · obtain rfl := Option.some.inj h
      exact ⟨le_refl _, rfl, by assumption, by assumption⟩
    · have ih := find_stop_spec s (j + 3) k h
      exact ⟨by omega, by omega, ih.2.2⟩
  · exact absurd h (by simp)
termination_by s.length - j


/-- The outer `while` loop of `detect_orfs` for one frame: at `ATG`, look
for a stop; on success emit the ORF and resume at its end, otherwise step
the cursor by 3. -/
def orf_scan (s : List Char) (frame : Nat) (i : Nat) : List ORF :=
  if i + 2 < s.length then
    if (s.drop i).take 3 = ['A','T','G'] then
      match hfs : find_stop s (i + 3) with
      | some j =>
        let orf_sequence := (s.drop i).take (j + 3 - i)
        ⟨frame, i, j + 3, orf_sequence.length, orf_sequence⟩ :: orf_scan s frame (j + 3)
      | none => orf_scan s frame (i + 3)
    else orf_scan s frame (i + 3)
  else []
termination_by s.length - i
decreasing_by
  · have := (find_stop_spec s (i + 3) j hfs).1
    omega
  · omega
  · omega

/-- Embedding of `detect_orfs(sequence)` from `analysis.py`: the three frames scanned
in order, results concatenated. -/
def detect_orfs (sequence : List Char) : List ORF :=
  let s := upper sequence
  orf_scan s 0 0 ++ orf_scan s 1 1 ++ orf_scan s 2 2

/-! ## Helper lemmas -/

theorem upper_length (s : List Char) : (upper s).length = s.length := by
  simp [upper]

theorem subst_scan_marks_length (pairs : List (Char × Char)) (i : Nat) :
    (subst_scan pairs i).1.length = pairs.length := by
  induction pairs generalizing i with
  | nil => rfl
  | cons p rest ih =>
    obtain ⟨a, b⟩ := p
    simp only [subst_scan]
    split <;> simp [ih]

theorem subst_scan_no_indel (pairs : List (Char × Char)) (i : Nat) :
    (subst_scan pairs i).2.filter isIndel = [] := by
  induction pairs generalizing i with
  | nil => rfl
  | cons p rest ih =>
    obtain ⟨a, b⟩ := p
    simp only [subst_scan]
    split
    · exact ih (i + 1)
    · simp [List.filter, isIndel, ih (i + 1)]

/-! ## C1 -/

/-- C1: the original claim fails on the code: when the reference is the
longer sequence, `align_sequences` does not pad `alignment_marks` with
gap marks, so the marks length is the min of the two lengths, not the
max.  At reference `"ATGAA"` and variant `"ATG"` the marks have length
3, not `max 5 3 = 5`. -/
theorem C1_counterexample :
    "ATGAA".toList.length ≠ "ATG".toList.length ∧
    (align_sequences "ATGAA".toList "ATG".toList).alignment.length ≠
      max "ATGAA".toList.length "ATG".toList.length := by decide

/-- C1 (amended): for sequences of different lengths, the substitution
scan over the min-length overlapping prefix produces one mark per
position; gap padding to length `max(len1, len2)` happens only in the
Insertion case (variant longer), while in the Deletion case (reference
longer) the marks keep length `min(len1, len2)`. -/
theorem C1_alignment_marks_length (s1 s2 : List Char) :
    (s1.length < s2.length →
      (align_sequences s1 s2).alignment.length = max s1.length s2.length) ∧
    (s2.length < s1.length →
      (align_sequences s1 s2).alignment.length = min s1.length s2.length) := by
  have e1 := upper_length s1
  have e2 := upper_length s2
  have zlen : ((upper s1).zip (upper s2)).length = min s1.length s2.length := by
    simp [List.length_zip, e1, e2]
  constructor <;> intro h <;>
    simp only [align_sequences, e1, e2] <;>
    rw [if_neg (by omega)]
  · rw [if_pos h]
    simp only [List.length_append, subst_scan_marks_length, zlen, List.length_replicate]
    omega
  · rw [if_neg (by omega)]
    simp only [subst_scan_marks_length, zlen]

/-- C1 witness: at variant-longer and reference-longer concrete inputs. -/
theorem C1_witness :
    ("ATG".toList.length < "ATGAA".toList.length ∧
      (align_sequences "ATG".toList "ATGAA".toList).alignment.length =
        max "ATG".toList.length "ATGAA".toList.length) ∧
    ("ATG".toList.length < "ATGCC".toList.length ∧
      (align_sequences "ATGCC".toList "ATG".toList).alignment.length =
        min "ATGCC".toList.length "ATG".toList.length) :=
  ⟨⟨by decide, (C1_alignment_marks_length "ATG".toList "ATGAA".toList).1 (by decide)⟩,
   ⟨by decide, (C1_alignment_marks_length "ATGCC".toList "ATG".toList).2 (by decide)⟩⟩

/-! ## C2 -/

/-- C2: for sequences of different lengths, `align_sequences` emits
exactly one indel — an Insertion at `len(reference)` of the variant's
tail when the variant is longer, a Deletion at `len(variant)` of the
reference's tail when the reference is longer — `mutation_count` is the
number of mutation entries, and `align("ATG", "ATGAA")` gives exactly
one Insertion at position 3 of length 2 with sequence `"AA"`. -/
theorem C2_single_trailing_indel :
    (∀ s1 s2 : List Char, s1.length ≠ s2.length →
      (align_sequences s1 s2).mutation_count = (align_sequences s1 s2).mutations.length ∧
      (align_sequences s1 s2).mutations.filter isIndel =
        [if s1.length < s2.length then
          Mutation.insertion s1.length (s2.length - s1.length) ((upper s2).drop s1.length)
         else
          Mutation.deletion s2.length (s1.length - s2.length) ((upper s1).drop s2.length)]) ∧
    ((align_sequences "ATG".toList "ATGAA".toList).mutations =
        [Mutation.insertion 3 2 "AA".toList] ∧
      (align_sequences "ATG".toList "ATGAA".toList).mutation_count = 1) := by
  refine ⟨fun s1 s2 h => ?_, by decide⟩
  have e1 := upper_length s1
  have e2 := upper_length s2
  simp only [align_sequences, e1, e2]
  rw [if_neg h]
  by_cases hlt : s1.length < s2.length
  · rw [if_pos hlt, if_pos hlt]
    refine ⟨rfl, ?_⟩
    simp [List.filter, isIndel, subst_scan_no_indel]
    omega
  · rw [if_neg hlt, if_neg hlt]
    refine ⟨rfl, ?_⟩
    simp [List.filter, isIndel, subst_scan_no_indel]
    omega

/-- C2 witness: a concrete reference-longer pair. -/
theorem C2_witness :
    "ATGCC".toList.length ≠ "ATG".toList.length ∧
    ((align_sequences "ATGCC".toList "ATG".toList).mutation_count =
        (align_sequences "ATGCC".toList "ATG".toList).mutations.length ∧
      (align_sequences "ATGCC".toList "ATG".toList).mutations.filter isIndel =
        [if "ATGCC".toList.length < "ATG".toList.length then
          Mutation.insertion "ATGCC".toList.length
            ("ATG".toList.length - "ATGCC".toList.length)
            ((upper "ATG".toList).drop "ATGCC".toList.length)
         else
          Mutation.deletion "ATG".toList.length
            ("ATGCC".toList.length - "ATG".toList.length)
            ((upper "ATGCC".toList).drop "ATG".toList.length)]) :=
  ⟨by decide, C2_single_trailing_indel.1 "ATGCC".toList "ATG".toList (by decide)⟩

/-! ## C7 -/

/-- The total symbol complement underlying `complement_map` on valid
bases, used only in proofs. -/
def comp_total (c : Char) : Char :=
  if c = 'A' then 'T' else if c = 'T' then 'A' else if c = 'C' then 'G' else 'C'

theorem upper_of_valid (s : List Char) (h : ∀ c ∈ s, c ∈ (['A', 'T', 'C', 'G'] : List Char)) :
    upper s = s := by
  induction s with
  | nil => rfl
  | cons c rest ih =>
    have hc := h c (by simp)
    have hrest := ih fun x hx => h x (List.mem_cons_of_mem c hx)
    have hcu : c.toUpper = c := by fin_cases hc <;> decide
    simp [upper] at hrest ⊢
    exact ⟨hcu, hrest⟩

theorem complement_walk_of_valid (s : List Char)
    (h : ∀ c ∈ s, c ∈ (['A', 'T', 'C', 'G'] : List Char)) :
    complement_walk s = some (s.map comp_total) := by
  induction s with
  | nil => rfl
  | cons c rest ih =>
    have hc := h c (by simp)
    have hrest := ih fun x hx => h x (List.mem_cons_of_mem c hx)
    have hcm : complement_map c = some (comp_total c) := by fin_cases hc <;> decide
    simp [complement_walk, hcm, hrest]

theorem comp_total_valid (c : Char) (h : c ∈ (['A', 'T', 'C', 'G'] : List Char)) :
    comp_total c ∈ (['A', 'T', 'C', 'G'] : List Char) := by
  fin_cases h <;> decide

theorem comp_total_invol (c : Char) (h : c ∈ (['A', 'T', 'C', 'G'] : List Char)) :
    comp_total (comp_total c) = c := by
  fin_cases h <;> decide

theorem reverse_complement_of_valid (s : List Char)
    (h : ∀ c ∈ s, c ∈ (['A', 'T', 'C', 'G'] : List Char)) :
    reverse_complement s = some ((s.map comp_total).reverse) := by
  simp [reverse_complement, upper_of_valid s h, complement_walk_of_valid s h]

/-- C7: on sequences over {A,T,C,G}, `reverse_complement` succeeds, is an
involution, and preserves length. -/
theorem C7_involution (s : List Char)
    (h : ∀ c ∈ s, c ∈ (['A', 'T', 'C', 'G'] : List Char)) :
    ∃ t, reverse_complement s = some t ∧ reverse_complement t = some s ∧
      t.length = s.length := by
  refine ⟨(s.map comp_total).reverse, reverse_complement_of_valid s h, ?_, by simp⟩
  have hvalid : ∀ c ∈ (s.map comp_total).reverse, c ∈ (['A', 'T', 'C', 'G'] : List Char) := by
    intro c hc
    rw [List.mem_reverse, List.mem_map] at hc
    obtain ⟨a, ha, rfl⟩ := hc
    exact comp_total_valid a (h a ha)
  rw [reverse_complement_of_valid _ hvalid]
  congr 1
  rw [List.map_reverse, List.reverse_reverse, List.map_map]
  calc List.map (comp_total ∘ comp_total) s
      = List.map id s := List.map_congr_left fun a ha => comp_total_invol a (h a ha)
    _ = s := List.map_id s

/-- C7 witness: a concrete sequence over {A,T,C,G}. -/
theorem C7_witness :
    (∀ c ∈ "ATGC".toList, c ∈ (['A', 'T', 'C', 'G'] : List Char)) ∧
    ∃ t, reverse_complement "ATGC".toList = some t ∧
      reverse_complement t = some "ATGC".toList ∧ t.length = "ATGC".toList.length :=
  ⟨by decide, C7_involution "ATGC".toList (by decide)⟩

/-! ## C8 -/

/-- C8: the original claim fails on the code: `reverse_complement`
uppercases its input before the complement lookup, so the lowercase
input `"a"` contains a symbol outside {A,T,C,G} and yet the function
succeeds (returning `"T"`) instead of failing. -/
theorem C8_counterexample :
    ('a' ∈ "a".toList ∧ 'a' ∉ (['A', 'T', 'C', 'G'] : List Char)) ∧
    reverse_complement "a".toList = some "T".toList := by decide

theorem complement_map_eq_none (c : Char) :
    complement_map c = none ↔ c ∉ (['A', 'T', 'C', 'G'] : List Char) := by
  unfold complement_map
  split_ifs with h1 h2 h3 h4 <;> simp_all

theorem complement_walk_eq_none (l : List Char) :
    complement_walk l = none ↔ ∃ c ∈ l, complement_map c = none := by
  induction l with
  | nil => simp [complement_walk]
  | cons c rest ih =>
    rw [complement_walk]
    cases hcm : complement_map c with
    | none => simp [hcm]
    | some b =>
      cases hrest : complement_walk rest with
      | none => simp [hcm, hrest, ih.mp hrest]
      | some bs => simp [hcm, hrest, ← ih]

/-- C8 (amended): `reverse_complement` fails exactly when its uppercased
input contains a symbol outside {A,T,C,G}; lowercase a/t/c/g are
uppercased first and therefore tolerated.  (The other core operations
are embedded as total functions: they never fail.) -/
theorem C8_invalid_symbol_iff (s : List Char) :
    reverse_complement s = none ↔
      ∃ c ∈ upper s, c ∉ (['A', 'T', 'C', 'G'] : List Char) := by
  rw [reverse_complement]
  cases hm : complement_walk (upper s) with
  | none =>
    simp only [Option.map_none', true_iff]
    obtain ⟨c, hc, hnone⟩ := (complement_walk_eq_none (upper s)).mp hm
    exact ⟨c, hc, (complement_map_eq_none c).mp hnone⟩
  | some t =>
    simp only [Option.map_some', reduceCtorEq, false_iff]
    intro ⟨c, hc, hnotin⟩
    have : complement_walk (upper s) = none :=
      (complement_walk_eq_none (upper s)).mpr
        ⟨c, hc, (complement_map_eq_none c).mpr hnotin⟩
    simp [this] at hm

/-- C8 witness: an uppercase non-nucleotide symbol makes it fail. -/
theorem C8_witness : reverse_complement "AXT".toList = none :=
  (C8_invalid_symbol_iff "AXT".toList).mpr ⟨'X', by decide, by decide⟩

/-! ## C9 -/

theorem counts_sum_of_valid (s : List Char)
    (h : ∀ c ∈ s, c ∈ (['A', 'T', 'C', 'G'] : List Char)) :
    (count_nucleotides s).A + (count_nucleotides s).T +
      (count_nucleotides s).C + (count_nucleotides s).G = s.length := by
  simp only [count_nucleotides, upper_of_valid s h]
  induction s with
  | nil => rfl
  | cons c rest ih =>
    have hc := h c (by simp)
    have hrest := ih fun x hx => h x (List.mem_cons_of_mem c hx)
    simp only [List.count_cons, List.length_cons]
    fin_cases hc <;> simp_all <;> omega

/-- C9: `calculate_percentages` returns {0.0, 0.0} on the empty sequence;
on a non-empty sequence over {A,T,C,G} it returns the rounded GC and AT
ratios, and the two rounded percentages sum to 100 within rounding
tolerance. -/
theorem C9_percentages (s : List Char) :
    (s.length = 0 → calculate_percentages s = ⟨0, 0⟩) ∧
    (s.length ≠ 0 → (∀ c ∈ s, c ∈ (['A', 'T', 'C', 'G'] : List Char)) →
      (calculate_percentages s).gc_percent =
        round2 ((((count_nucleotides s).G + (count_nucleotides s).C : ℚ) / s.length) * 100) ∧
      (calculate_percentages s).at_percent =
        round2 ((((count_nucleotides s).A + (count_nucleotides s).T : ℚ) / s.length) * 100) ∧
      |(calculate_percentages s).gc_percent + (calculate_percentages s).at_percent - 100| ≤
        1 / 100) := by
  constructor
  · intro h
    simp [calculate_percentages, h]
  · intro h hvalid
    have hgc : (calculate_percentages s).gc_percent =
        round2 ((((count_nucleotides s).G + (count_nucleotides s).C : ℚ) / s.length) * 100) := by
      simp [calculate_percentages, h]
    have hat : (calculate_percentages s).at_percent =
        round2 ((((count_nucleotides s).A + (count_nucleotides s).T : ℚ) / s.length) * 100) := by
      simp [calculate_percentages, h]
    refine ⟨hgc, hat, ?_⟩
    set g : ℚ := (((count_nucleotides s).G + (count_nucleotides s).C : ℚ) / s.length) * 100 with hg
    set a : ℚ := (((count_nucleotides s).A + (count_nucleotides s).T : ℚ) / s.length) * 100 with ha
    have hlen : (s.length : ℚ) ≠ 0 := Nat.cast_ne_zero.mpr h
    have hsum : g + a = 100 := by
      rw [hg, ha]
      have hc := counts_sum_of_valid s hvalid
      field_simp
      push_cast [← hc]
      ring
    rw [hgc, hat]
    have hb1 : |(round (g * 100) : ℚ) - g * 100| ≤ 1 / 2 := by
      rw [abs_sub_comm]; exact abs_sub_round (g * 100)
    have hb2 : |(round (a * 100) : ℚ) - a * 100| ≤ 1 / 2 := by
      rw [abs_sub_comm]; exact abs_sub_round (a * 100)
    have hrw : round2 g + round2 a - 100 =
        (((round (g * 100) : ℚ) - g * 100) + ((round (a * 100) : ℚ) - a * 100)) / 100 := by
      rw [round2, round2]
      have : g * 100 + a * 100 = 10000 := by
        rw [← add_mul, hsum]; norm_num
      field_simp
      linarith
    rw [hrw, abs_div]
    have habs : |((round (g * 100) : ℚ) - g * 100) + ((round (a * 100) : ℚ) - a * 100)| ≤ 1 :=
      le_trans (abs_add _ _) (by linarith)
    rw [abs_of_pos (by norm_num : (0 : ℚ) < 100)]
    linarith

/-- C9 witness: a concrete non-empty sequence over {A,T,C,G}. -/
theorem C9_witness :
    "ATGCC".toList.length ≠ 0 ∧
    ((calculate_percentages "ATGCC".toList).gc_percent =
        round2 ((((count_nucleotides "ATGCC".toList).G +
          (count_nucleotides "ATGCC".toList).C : ℚ) / "ATGCC".toList.length) * 100) ∧
      (calculate_percentages "ATGCC".toList).at_percent =
        round2 ((((count_nucleotides "ATGCC".toList).A +
          (count_nucleotides "ATGCC".toList).T : ℚ) / "ATGCC".toList.length) * 100) ∧
      |(calculate_percentages "ATGCC".toList).gc_percent +
          (calculate_percentages "ATGCC".toList).at_percent - 100| ≤ 1 / 100) :=
  ⟨by decide, (C9_percentages "ATGCC".toList).2 (by decide) (by decide)⟩

/-! ## C4 and C10: translation walk lemmas -/

theorem translate_walk_protein_length (l : List Char) (i : Nat) :
    3 * (translate_walk l i).1.length ≤ l.length := by
  induction l, i using translate_walk.induct with
  | case1 c1 c2 c3 rest i codon amino hstop =>
    have hs : translate_codon [c1, c2, c3] = '*' := hstop
    simp [translate_walk, hs]
  | case2 c1 c2 c3 rest i codon amino hstop ih =>
    have hs : ¬translate_codon [c1, c2, c3] = '*' := hstop
    simp only [translate_walk, hs, ite_false, List.length_cons]
    omega
  | case3 l i h =>
    rw [translate_walk.eq_def]
    split
    · exact (h _ _ _ _ rfl).elim
    · simp

theorem translate_walk_no_inner_stop (l : List Char) (i : Nat) :
    ∀ k, k + 1 < (translate_walk l i).1.length → (translate_walk l i).1.getD k '?' ≠ '*' := by
  induction l, i using translate_walk.induct with
  | case1 c1 c2 c3 rest i codon amino hstop =>
    intro k hk
    have hs : translate_codon [c1, c2, c3] = '*' := hstop
    simp [translate_walk, hs] at hk
  | case2 c1 c2 c3 rest i codon amino hstop ih =>
    intro k hk
    have hs : ¬translate_codon [c1, c2, c3] = '*' := hstop
    simp only [translate_walk, hs, ite_false, List.length_cons] at hk ⊢
    match k with
    | 0 => simpa using hs
    | k + 1 =>
      simp only [List.getD_cons_succ]
      exact ih k (by omega)
  | case3 l i h =>
    intro k hk
    rw [translate_walk.eq_def] at hk
    split at hk
    · exact (h _ _ _ _ rfl).elim
    · simp at hk

theorem translate_walk_codons_full (l : List Char) (i : Nat) :
    ∀ c ∈ (translate_walk l i).2.1, c.length = 3 := by
  induction l, i using translate_walk.induct with
  | case1 c1 c2 c3 rest i codon amino hstop =>
    intro c hc
    have hs : translate_codon [c1, c2, c3] = '*' := hstop
    simp [translate_walk, hs] at hc
    simp [hc]
  | case2 c1 c2 c3 rest i codon amino hstop ih =>
    intro c hc
    have hs : ¬translate_codon [c1, c2, c3] = '*' := hstop
    simp only [translate_walk, hs, ite_false, List.mem_cons] at hc
    rcases hc with rfl | hc
    · rfl
    · exact ih c hc
  | case3 l i h =>
    intro c hc
    rw [translate_walk.eq_def] at hc
    split at hc
    · exact (h _ _ _ _ rfl).elim
    · simp at hc

theorem translate_walk_positions (l : List Char) (i : Nat) :
    ∀ k, k < (translate_walk l i).2.2.length →
      ((translate_walk l i).2.2.getD k ⟨[], '?', 0⟩).position = i + 3 * k := by
  induction l, i using translate_walk.induct with
  | case1 c1 c2 c3 rest i codon amino hstop =>
    intro k hk
    have hs : translate_codon [c1, c2, c3] = '*' := hstop
    simp [translate_walk, hs] at hk
    subst hk
    simp [translate_walk, hs]
  | case2 c1 c2 c3 rest i codon amino hstop ih =>
    intro k hk
    have hs : ¬translate_codon [c1, c2, c3] = '*' := hstop
    simp only [translate_walk, hs, ite_false, List.length_cons] at hk ⊢
    match k with
    | 0 => simp
    | k + 1 =>
      simp only [List.getD_cons_succ]
      rw [ih k (by omega)]
      omega
  | case3 l i h =>
    intro k hk
    rw [translate_walk.eq_def] at hk
    split at hk
    · exact (h _ _ _ _ rfl).elim
    · simp at hk

/-- C4: `translate_dna` returns the empty TranslationResult when the
offset is at or past the end; otherwise it consumes only full codons —
`3 * len(protein) ≤ len(sequence) - start_offset`, every emitted codon
has length 3, and a stop marker can only be the final protein symbol
(so the walk stops at the first stop codon). -/
theorem C4_translate_bounds (s : List Char) (off : Nat) :
    (off ≥ s.length → translate_dna s off = ⟨[], [], []⟩) ∧
    3 * (translate_dna s off).protein.length ≤ s.length - off ∧
    (∀ k, k + 1 < (translate_dna s off).protein.length →
      (translate_dna s off).protein.getD k '?' ≠ '*') ∧
    (∀ c ∈ (translate_dna s off).codons, c.length = 3) := by
  have e : (upper s).length = s.length := upper_length s
  by_cases hoff : off ≥ s.length
  · have hdna : translate_dna s off = ⟨[], [], []⟩ := by
      simp only [translate_dna]
      rw [if_pos (by omega)]
    refine ⟨fun _ => hdna, ?_, ?_, ?_⟩ <;> simp [hdna]
  · have hdna : translate_dna s off =
        ⟨(translate_walk ((upper s).drop off) 0).1,
         (translate_walk ((upper s).drop off) 0).2.1,
         (translate_walk ((upper s).drop off) 0).2.2⟩ := by
      simp only [translate_dna]
      rw [if_neg (by omega)]
    refine ⟨fun h => absurd h hoff, ?_, ?_, ?_⟩
    · rw [hdna]
      have hw := translate_walk_protein_length ((upper s).drop off) 0
      simp only [List.length_drop, e] at hw
      exact hw
    · rw [hdna]
      exact translate_walk_no_inner_stop _ 0
    · rw [hdna]
      exact translate_walk_codons_full _ 0

/-- C4 witness: past-the-end offset gives the empty result, and on
`"ATGAAATAG"` (protein `"MK*"`) the first symbol is not a stop. -/
theorem C4_witness :
    (100 ≥ "ATGAAATAG".toList.length ∧
      translate_dna "ATGAAATAG".toList 100 = ⟨[], [], []⟩) ∧
    (0 + 1 < (translate_dna "ATGAAATAG".toList 0).protein.length ∧
      (translate_dna "ATGAAATAG".toList 0).protein.getD 0 '?' ≠ '*') :=
  ⟨⟨by decide, (C4_translate_bounds "ATGAAATAG".toList 100).1 (by decide)⟩,
   ⟨by decide, (C4_translate_bounds "ATGAAATAG".toList 0).2.2.1 0 (by decide)⟩⟩

/-- C10: the `position` field of the k-th `codon_map` entry of
`translate_dna` is `3 * k`, relative to the start offset (the sequence
is sliced before the codon walk), for every sequence and offset. -/
theorem C10_codon_map_positions (s : List Char) (off k : Nat)
    (h : k < (translate_dna s off).codon_map.length) :
    ((translate_dna s off).codon_map.getD k ⟨[], '?', 0⟩).position = 3 * k := by
  by_cases hoff : off ≥ (upper s).length
  · have hdna : translate_dna s off = ⟨[], [], []⟩ := by
      simp only [translate_dna]
      rw [if_pos hoff]
    rw [hdna] at h
    simp at h
  · have hdna : (translate_dna s off).codon_map =
        (translate_walk ((upper s).drop off) 0).2.2 := by
      simp only [translate_dna]
      rw [if_neg hoff]
    rw [hdna] at h ⊢
    simpa using translate_walk_positions _ 0 k h

/-- C10 witness: the third codon of `"ATGAAATAG"` sits at position 6. -/
theorem C10_witness :
    2 < (translate_dna "ATGAAATAG".toList 0).codon_map.length ∧
    ((translate_dna "ATGAAATAG".toList 0).codon_map.getD 2 ⟨[], '?', 0⟩).position = 3 * 2 :=
  ⟨by decide, C10_codon_map_positions "ATGAAATAG".toList 0 2 (by decide)⟩

/-! ## C3: protein comparison lemmas -/

theorem prot_subst_scan_no_indel (pairs : List (Char × Char)) (i : Nat) :
    (prot_subst_scan pairs i).filter isProteinIndel = [] := by
  induction pairs generalizing i with
  | nil => rfl
  | cons p rest ih =>
    obtain ⟨a, b⟩ := p
    simp only [prot_subst_scan]
    split
    · exact ih (i + 1)
    · simp [List.filter, isProteinIndel, ih (i + 1)]

theorem prot_subst_scan_sound (pairs : List (Char × Char)) (k : Nat) :
    ∀ pm ∈ prot_subst_scan pairs k, ∃ d, d < pairs.length ∧
      pm = ProteinMutation.substitution (k + d)
        (pairs.getD d ('?', '?')).1 (pairs.getD d ('?', '?')).2 ∧
      (pairs.getD d ('?', '?')).1 ≠ (pairs.getD d ('?', '?')).2 := by
  induction pairs generalizing k with
  | nil => simp [prot_subst_scan]
  | cons p rest ih =>
    obtain ⟨a, b⟩ := p
    intro pm hpm
    simp only [prot_subst_scan] at hpm
    by_cases hab : a = b
    · rw [if_pos hab] at hpm
      obtain ⟨d, hd, hpm', hne⟩ := ih (k + 1) pm hpm
      have heq : k + 1 + d = k + (d + 1) := by omega
      rw [heq] at hpm'
      exact ⟨d + 1, by simpa using hd, by simpa using hpm', by simpa using hne⟩
    · rw [if_neg hab] at hpm
      rcases List.mem_cons.mp hpm with rfl | hpm'
      · exact ⟨0, by simp, by simp, by simpa using hab⟩
      · obtain ⟨d, hd, hpm'', hne⟩ := ih (k + 1) pm hpm'
        have heq : k + 1 + d = k + (d + 1) := by omega
        rw [heq] at hpm''
        exact ⟨d + 1, by simpa using hd, by simpa using hpm'', by simpa using hne⟩

theorem prot_subst_scan_complete (pairs : List (Char × Char)) (k d : Nat)
    (hd : d < pairs.length)
    (hne : (pairs.getD d ('?', '?')).1 ≠ (pairs.getD d ('?', '?')).2) :
    ProteinMutation.substitution (k + d)
        (pairs.getD d ('?', '?')).1 (pairs.getD d ('?', '?')).2 ∈
      prot_subst_scan pairs k := by
  induction pairs generalizing k d with
  | nil => simp at hd
  | cons p rest ih =>
    obtain ⟨a, b⟩ := p
    match d with
    | 0 =>
      simp only [List.getD_cons_zero] at hne ⊢
      simp only [prot_subst_scan, if_neg hne]
      simp
    | d + 1 =>
      simp only [List.getD_cons_succ] at hne ⊢
      have hmem := ih (k + 1) d (by simpa using hd) hne
      have heq : k + 1 + d = k + (d + 1) := by omega
      rw [heq] at hmem
      simp only [prot_subst_scan]
      split
      · exact hmem
      · exact List.mem_cons_of_mem _ hmem

theorem zip_getD (l1 l2 : List Char) (i : Nat) (h : i < min l1.length l2.length) :
    (l1.zip l2).getD i ('?', '?') = (l1.getD i '?', l2.getD i '?') := by
  induction l1 generalizing l2 i with
  | nil => simp at h
  | cons a l1 ih =>
    cases l2 with
    | nil => simp at h
    | cons b l2 =>
      match i with
      | 0 => simp [List.zip_cons_cons]
      | i + 1 =>
        simp only [List.zip_cons_cons, List.getD_cons_succ]
        refine ih l2 i ?_
        simp only [List.length_cons] at h
        omega

theorem compare_proteins_mutations (s1 s2 : List Char) :
    (compare_proteins s1 s2).protein_mutations =
      prot_subst_scan ((translate_dna s1 0).protein.zip (translate_dna s2 0).protein) 0 ++
        (if (translate_dna s1 0).protein.length = (translate_dna s2 0).protein.length then []
         else if (translate_dna s1 0).protein.length < (translate_dna s2 0).protein.length then
           [ProteinMutation.insertion (translate_dna s1 0).protein.length
             ((translate_dna s2 0).protein.drop (translate_dna s1 0).protein.length)]
         else
           [ProteinMutation.deletion (translate_dna s2 0).protein.length
             ((translate_dna s1 0).protein.drop (translate_dna s2 0).protein.length)]) := by
  simp only [compare_proteins]
  split_ifs <;> simp

/-- C3: the protein comparison of `compare_sequences` mirrors the naive
DNA policy over amino acids: its substitution records are exactly the
positional mismatches over the common prefix of the two translated
proteins (with the two symbols recorded), and a length mismatch yields
exactly one trailing indel, positioned at the shorter protein's length
and carrying the longer protein's tail. -/
theorem C3_protein_level_diff (s1 s2 : List Char) :
    ((compare_sequences s1 s2).protein_comparison.protein1 = (translate_dna s1 0).protein ∧
      (compare_sequences s1 s2).protein_comparison.protein2 = (translate_dna s2 0).protein) ∧
    (∀ pm ∈ (compare_sequences s1 s2).protein_comparison.protein_mutations,
      isProteinIndel pm = false →
      ∃ i, i < min (translate_dna s1 0).protein.length (translate_dna s2 0).protein.length ∧
        pm = ProteinMutation.substitution i ((translate_dna s1 0).protein.getD i '?')
          ((translate_dna s2 0).protein.getD i '?') ∧
        (translate_dna s1 0).protein.getD i '?' ≠ (translate_dna s2 0).protein.getD i '?') ∧
    (∀ i, i < min (translate_dna s1 0).protein.length (translate_dna s2 0).protein.length →
      (translate_dna s1 0).protein.getD i '?' ≠ (translate_dna s2 0).protein.getD i '?' →
      ProteinMutation.substitution i ((translate_dna s1 0).protein.getD i '?')
          ((translate_dna s2 0).protein.getD i '?') ∈
        (compare_sequences s1 s2).protein_comparison.protein_mutations) ∧
    ((compare_sequences s1 s2).protein_comparison.protein_mutations.filter isProteinIndel =
      if (translate_dna s1 0).protein.length = (translate_dna s2 0).protein.length then []
      else if (translate_dna s1 0).protein.length < (translate_dna s2 0).protein.length then
        [ProteinMutation.insertion (translate_dna s1 0).protein.length
          ((translate_dna s2 0).protein.drop (translate_dna s1 0).protein.length)]
      else
        [ProteinMutation.deletion (translate_dna s2 0).protein.length
          ((translate_dna s1 0).protein.drop (translate_dna s2 0).protein.length)]) := by
  have hpc : (compare_sequences s1 s2).protein_comparison = compare_proteins s1 s2 := rfl
  have hzlen : ((translate_dna s1 0).protein.zip (translate_dna s2 0).protein).length =
      min (translate_dna s1 0).protein.length (translate_dna s2 0).protein.length :=
    List.length_zip _ _
  refine ⟨⟨rfl, rfl⟩, ?_, ?_, ?_⟩
  · intro pm hpm hsub
    rw [hpc, compare_proteins_mutations] at hpm
    rcases List.mem_append.mp hpm with hmem | hmem
    · obtain ⟨d, hd, hpmeq, hne⟩ := prot_subst_scan_sound _ 0 pm hmem
      rw [hzlen] at hd
      rw [zip_getD _ _ d hd] at hpmeq hne
      exact ⟨d, hd, by simpa using hpmeq, hne⟩
    · exfalso
      split_ifs at hmem <;> simp_all [isProteinIndel]
  · intro i hi hne
    rw [hpc, compare_proteins_mutations]
    refine List.mem_append_left _ ?_
    have := prot_subst_scan_complete
      ((translate_dna s1 0).protein.zip (translate_dna s2 0).protein) 0 i
      (by rw [hzlen]; exact hi) (by rw [zip_getD _ _ i hi]; exact hne)
    rw [zip_getD _ _ i hi] at this
    simpa using this
  · rw [hpc, compare_proteins_mutations, List.filter_append, prot_subst_scan_no_indel]
    split_ifs <;> simp [isProteinIndel]

/-- C3 witness: `"ATGAAA"` translates to `"MK"` and `"ATGGAATAG"` to
`"ME*"`: one substitution at position 1 and one trailing insertion. -/
theorem C3_witness :
    (1 < min (translate_dna "ATGAAA".toList 0).protein.length
        (translate_dna "ATGGAATAG".toList 0).protein.length ∧
      (translate_dna "ATGAAA".toList 0).protein.getD 1 '?' ≠
        (translate_dna "ATGGAATAG".toList 0).protein.getD 1 '?' ∧
      ProteinMutation.substitution 1
          ((translate_dna "ATGAAA".toList 0).protein.getD 1 '?')
          ((translate_dna "ATGGAATAG".toList 0).protein.getD 1 '?') ∈
        (compare_sequences "ATGAAA".toList "ATGGAATAG".toList).protein_comparison.protein_mutations) ∧
    ((compare_sequences "ATGAAA".toList "ATGGAATAG".toList).protein_comparison.protein_mutations.filter
        isProteinIndel =
      if (translate_dna "ATGAAA".toList 0).protein.length =
          (translate_dna "ATGGAATAG".toList 0).protein.length then []
      else if (translate_dna "ATGAAA".toList 0).protein.length <
          (translate_dna "ATGGAATAG".toList 0).protein.length then
        [ProteinMutation.insertion (translate_dna "ATGAAA".toList 0).protein.length
          ((translate_dna "ATGGAATAG".toList 0).protein.drop
            (translate_dna "ATGAAA".toList 0).protein.length)]
      else
        [ProteinMutation.deletion (translate_dna "ATGGAATAG".toList 0).protein.length
          ((translate_dna "ATGAAA".toList 0).protein.drop
            (translate_dna "ATGGAATAG".toList 0).protein.length)]) :=
  ⟨⟨by decide, by decide,
      (C3_protein_level_diff "ATGAAA".toList "ATGGAATAG".toList).2.2.1 1 (by decide) (by decide)⟩,
    (C3_protein_level_diff "ATGAAA".toList "ATGGAATAG".toList).2.2.2⟩

/-! ## C5 and C6: ORF scan lemmas -/

theorem orf_scan_emit (s : List Char) (f i j : Nat) (h1 : i + 2 < s.length)
    (h2 : (s.drop i).take 3 = ['A', 'T', 'G']) (h3 : find_stop s (i + 3) = some j) :
    orf_scan s f i =
      ⟨f, i, j + 3, ((s.drop i).take (j + 3 - i)).length, (s.drop i).take (j + 3 - i)⟩ ::
        orf_scan s f (j + 3) := by
  rw [orf_scan.eq_def, if_pos h1, if_pos h2]
  split
  · rename_i j' hj'
    rw [h3] at hj'
    obtain rfl := Option.some.inj hj'
    rfl
  · rename_i hnone
    rw [h3] at hnone
    cases hnone

theorem orf_scan_skip (s : List Char) (f i : Nat) (h1 : i + 2 < s.length)
    (h2 : (s.drop i).take 3 = ['A', 'T', 'G']) (h3 : find_stop s (i + 3) = none) :
    orf_scan s f i = orf_scan s f (i + 3) := by
  rw [orf_scan.eq_def, if_pos h1, if_pos h2]
  split
  · rename_i j' hj'
    rw [h3] at hj'
    cases hj'
  · rfl

theorem orf_scan_step (s : List Char) (f i : Nat) (h1 : i + 2 < s.length)
    (h2 : ¬(s.drop i).take 3 = ['A', 'T', 'G']) :
    orf_scan s f i = orf_scan s f (i + 3) := by
  rw [orf_scan.eq_def, if_pos h1, if_neg h2]

theorem orf_scan_stop (s : List Char) (f i : Nat) (h1 : ¬i + 2 < s.length) :
    orf_scan s f i = [] := by
  rw [orf_scan.eq_def, if_neg h1]

theorem orf_scan_mem_spec (s : List Char) (f : Nat) : ∀ n i, s.length - i ≤ n →
    ∀ o ∈ orf_scan s f i,
    o.frame = f ∧ o.start + 6 ≤ o.end_ ∧ o.end_ ≤ s.length ∧
    (o.end_ - o.start) % 3 = 0 ∧ o.length = o.end_ - o.start ∧
    o.sequence = (s.drop o.start).take (o.end_ - o.start) ∧
    (s.drop o.start).take 3 = ['A', 'T', 'G'] ∧
    (s.drop (o.end_ - 3)).take 3 ∈ stop_codons := by
  intro n
  induction n with
  | zero =>
    intro i hn o ho
    rw [orf_scan_stop s f i (by omega)] at ho
    cases ho
  | succ n ih =>
    intro i hn o ho
    by_cases h1 : i + 2 < s.length
    · by_cases h2 : (s.drop i).take 3 = ['A', 'T', 'G']
      · cases h3 : find_stop s (i + 3) with
        | some j =>
          obtain ⟨hj1, hj2, hj3, hj4⟩ := find_stop_spec s (i + 3) j h3
          rw [orf_scan_emit s f i j h1 h2 h3] at ho
          rcases List.mem_cons.mp ho with rfl | ho
          · refine ⟨rfl, ?_, ?_, ?_, ?_, rfl, h2, ?_⟩
            · show i + 6 ≤ j + 3
              omega
            · show j + 3 ≤ s.length
              omega
            · show (j + 3 - i) % 3 = 0
              omega
            · show ((s.drop i).take (j + 3 - i)).length = j + 3 - i
              simp only [List.length_take, List.length_drop]
              omega
            · show (s.drop (j + 3 - 3)).take 3 ∈ stop_codons
              have hjj : j + 3 - 3 = j := by omega
              rw [hjj]
              exact hj4
          · exact ih (j + 3) (by omega) o ho
        | none =>
          rw [orf_scan_skip s f i h1 h2 h3] at ho
          exact ih (i + 3) (by omega) o ho
      · rw [orf_scan_step s f i h1 h2] at ho
        exact ih (i + 3) (by omega) o ho
    · rw [orf_scan_stop s f i h1] at ho
      cases ho

theorem orf_scan_mem (s : List Char) (f i : Nat) (o : ORF) (ho : o ∈ orf_scan s f i) :
    o.frame = f ∧ o.start + 6 ≤ o.end_ ∧ o.end_ ≤ s.length ∧
    (o.end_ - o.start) % 3 = 0 ∧ o.length = o.end_ - o.start ∧
    o.sequence = (s.drop o.start).take (o.end_ - o.start) ∧
    (s.drop o.start).take 3 = ['A', 'T', 'G'] ∧
    (s.drop (o.end_ - 3)).take 3 ∈ stop_codons :=
  orf_scan_mem_spec s f s.length i (by omega) o ho

theorem orf_scan_start_spec (s : List Char) (f : Nat) : ∀ n i, s.length - i ≤ n →
    ∀ o ∈ orf_scan s f i, i ≤ o.start ∧ o.start % 3 = i % 3 := by
  intro n
  induction n with
  | zero =>
    intro i hn o ho
    rw [orf_scan_stop s f i (by omega)] at ho
    cases ho
  | succ n ih =>
    intro i hn o ho
    by_cases h1 : i + 2 < s.length
    · by_cases h2 : (s.drop i).take 3 = ['A', 'T', 'G']
      · cases h3 : find_stop s (i + 3) with
        | some j =>
          obtain ⟨hj1, hj2, hj3, hj4⟩ := find_stop_spec s (i + 3) j h3
          rw [orf_scan_emit s f i j h1 h2 h3] at ho
          rcases List.mem_cons.mp ho with rfl | ho
          · exact ⟨le_refl _, rfl⟩
          · have := ih (j + 3) (by omega) o ho
            exact ⟨by omega, by omega⟩
        | none =>
          rw [orf_scan_skip s f i h1 h2 h3] at ho
          have := ih (i + 3) (by omega) o ho
          exact ⟨by omega, by omega⟩
      · rw [orf_scan_step s f i h1 h2] at ho
        have := ih (i + 3) (by omega) o ho
        exact ⟨by omega, by omega⟩
    · rw [orf_scan_stop s f i h1] at ho
      cases ho

theorem orf_scan_chain_spec (s : List Char) (f : Nat) : ∀ n i, s.length - i ≤ n →
    (orf_scan s f i).Pairwise (fun o1 o2 => o1.end_ ≤ o2.start) := by
  intro n
  induction n with
  | zero =>
    intro i hn
    rw [orf_scan_stop s f i (by omega)]
    exact List.Pairwise.nil
  | succ n ih =>
    intro i hn
    by_cases h1 : i + 2 < s.length
    · by_cases h2 : (s.drop i).take 3 = ['A', 'T', 'G']
      · cases h3 : find_stop s (i + 3) with
        | some j =>
          obtain ⟨hj1, hj2, hj3, hj4⟩ := find_stop_spec s (i + 3) j h3
          rw [orf_scan_emit s f i j h1 h2 h3]
          refine List.Pairwise.cons ?_ (ih (j + 3) (by omega))
          intro o ho
          have := (orf_scan_start_spec s f s.length (j + 3) (by omega) o ho).1
          simpa using this
        | none =>
          rw [orf_scan_skip s f i h1 h2 h3]
          exact ih (i + 3) (by omega)
      · rw [orf_scan_step s f i h1 h2]
        exact ih (i + 3) (by omega)
    · rw [orf_scan_stop s f i h1]
      exact List.Pairwise.nil

theorem take_drop_tail (s : List Char) (a L : Nat) (h3 : 3 ≤ L) (_hle : a + L ≤ s.length) :
    ((s.drop a).take L).drop (L - 3) = (s.drop (a + L - 3)).take 3 := by
  rw [List.drop_take, List.drop_drop]
  congr 1
  · omega
  · congr 1
    omega

/-- C5: the ORFs of `detect_orfs` come out grouped by frame (all frame-0
ORFs in scan order, then frame 1, then frame 2) and two ORFs of the same
frame never overlap: the earlier one ends at or before the later one
starts, and every ORF has a non-empty [start, end) range. -/
theorem C5_frame_order_no_overlap (s : List Char) :
    (detect_orfs s).Pairwise (fun o1 o2 =>
      o1.frame ≤ o2.frame ∧ (o1.frame = o2.frame → o1.end_ ≤ o2.start)) ∧
    ∀ o ∈ detect_orfs s, o.start < o.end_ := by
  have hscan : ∀ f i, (orf_scan (upper s) f i).Pairwise (fun o1 o2 : ORF =>
      o1.frame ≤ o2.frame ∧ (o1.frame = o2.frame → o1.end_ ≤ o2.start)) := by
    intro f i
    refine List.Pairwise.imp_of_mem ?_
      (orf_scan_chain_spec (upper s) f (upper s).length i (by omega))
    intro a b ha hb hab
    have hfa := (orf_scan_mem (upper s) f i a ha).1
    have hfb := (orf_scan_mem (upper s) f i b hb).1
    rw [hfa, hfb]
    exact ⟨le_refl f, fun _ => hab⟩
  have hcross : ∀ f1 i1 f2 i2, f1 < f2 → ∀ a ∈ orf_scan (upper s) f1 i1,
      ∀ b ∈ orf_scan (upper s) f2 i2,
      a.frame ≤ b.frame ∧ (a.frame = b.frame → a.end_ ≤ b.start) := by
    intro f1 i1 f2 i2 hf a ha b hb
    have hfa := (orf_scan_mem (upper s) f1 i1 a ha).1
    have hfb := (orf_scan_mem (upper s) f2 i2 b hb).1
    rw [hfa, hfb]
    exact ⟨by omega, fun heq => absurd heq (by omega)⟩
  constructor
  · simp only [detect_orfs]
    rw [List.pairwise_append]
    refine ⟨?_, hscan 2 2, ?_⟩
    · rw [List.pairwise_append]
      exact ⟨hscan 0 0, hscan 1 1, fun a ha b hb => hcross 0 0 1 1 (by omega) a ha b hb⟩
    · intro a ha b hb
      rcases List.mem_append.mp ha with ha | ha
      · exact hcross 0 0 2 2 (by omega) a ha b hb
      · exact hcross 1 1 2 2 (by omega) a ha b hb
  · intro o ho
    simp only [detect_orfs] at ho
    rcases List.mem_append.mp ho with ho | ho
    · rcases List.mem_append.mp ho with ho | ho
      · have := (orf_scan_mem (upper s) 0 0 o ho).2.1
        omega
      · have := (orf_scan_mem (upper s) 1 1 o ho).2.1
        omega
    · have := (orf_scan_mem (upper s) 2 2 o ho).2.1
      omega

/-- C6: every ORF record of `detect_orfs` (on an uppercase input) has a
frame in {0,1,2}, a start congruent to its frame mod 3, `length`
= `end - start`, a length that is a multiple of 3 and at least 6, and a
`sequence` equal to the input's substring [start, end), beginning with
`ATG` and ending with one of TAA, TAG, TGA. -/
theorem C6_orf_record_invariants (s : List Char) (h : upper s = s) :
    ∀ o ∈ detect_orfs s,
      o.frame < 3 ∧ o.start % 3 = o.frame ∧ o.end_ ≤ s.length ∧
      o.length = o.end_ - o.start ∧ o.length % 3 = 0 ∧ 6 ≤ o.length ∧
      o.sequence = (s.drop o.start).take (o.end_ - o.start) ∧
      o.sequence.take 3 = ['A', 'T', 'G'] ∧
      o.sequence.drop (o.length - 3) ∈ stop_codons := by
  have key : ∀ f i, f < 3 → i % 3 = f → ∀ o ∈ orf_scan s f i,
      o.frame < 3 ∧ o.start % 3 = o.frame ∧ o.end_ ≤ s.length ∧
      o.length = o.end_ - o.start ∧ o.length % 3 = 0 ∧ 6 ≤ o.length ∧
      o.sequence = (s.drop o.start).take (o.end_ - o.start) ∧
      o.sequence.take 3 = ['A', 'T', 'G'] ∧
      o.sequence.drop (o.length - 3) ∈ stop_codons := by
    intro f i hf hi o ho
    obtain ⟨h1, h2, h3, h4, h5, h6, h7, h8⟩ := orf_scan_mem s f i o ho
    obtain ⟨h9, h10⟩ := orf_scan_start_spec s f s.length i (by omega) o ho
    refine ⟨by omega, by omega, h3, h5, by omega, by omega, h6, ?_, ?_⟩
    · rw [h6, List.take_take, min_eq_left (by omega)]
      exact h7
    · rw [h6, h5, take_drop_tail s o.start (o.end_ - o.start) (by omega) (by omega)]
      have heq : o.start + (o.end_ - o.start) - 3 = o.end_ - 3 := by omega
      rw [heq]
      exact h8
  intro o ho
  simp only [detect_orfs, h] at ho
  rcases List.mem_append.mp ho with ho | ho
  · rcases List.mem_append.mp ho with ho | ho
    · exact key 0 0 (by omega) (by omega) o ho
    · exact key 1 1 (by omega) (by omega) o ho
  · exact key 2 2 (by omega) (by omega) o ho

/-- C6 witness: the invariants instantiated on `"ATGAAATAG"`. -/
theorem C6_witness :
    upper "ATGAAATAG".toList = "ATGAAATAG".toList ∧
    ∀ o ∈ detect_orfs "ATGAAATAG".toList,
      o.frame < 3 ∧ o.start % 3 = o.frame ∧ o.end_ ≤ "ATGAAATAG".toList.length ∧
      o.length = o.end_ - o.start ∧ o.length % 3 = 0 ∧ 6 ≤ o.length ∧
      o.sequence = ("ATGAAATAG".toList.drop o.start).take (o.end_ - o.start) ∧
      o.sequence.take 3 = ['A', 'T', 'G'] ∧
      o.sequence.drop (o.length - 3) ∈ stop_codons :=
  ⟨by decide, C6_orf_record_invariants "ATGAAATAG".toList (by decide)⟩
